import Mathlib

/-
Verification of the fsl piecewise-flat forward curve library.

Shallow embedding conventions:
  * times, rates and cash amounts (the C++ template parameters T, F, U, C,
    all double) are modelled as ℚ, so that the curve layer and the root
    finder are executable and decidable; quantities that pass through the
    transcendental functions exp, log and sqrt (discount factors, present
    values, Black pricing) live in ℝ;
  * a double that can be NaN is modelled as an Option, with none for NaN
    (IEEE comparisons against NaN are false, and arithmetic propagates it);
  * code that throws is modelled with Except String carrying the thrown
    message.
-/

namespace fsl

/-- NaN-propagating addition on modelled doubles: none stands for NaN. -/
noncomputable def addO : Option ℝ → Option ℝ → Option ℝ
  | some a, some b => some (a + b)
  | _, _ => none

variable {X : Type} [LinearOrderedField X]

/-- sgn from fsl_math.h: 1, -1 or 0 according to the sign of x. -/
def sgn (x : X) : X :=
  if x > 0 then 1 else if x < 0 then -1 else 0

/-- samesign from fsl_math.h: sgn x = sgn y. -/
def samesign (x : X) (y : X) : Bool :=
  decide (sgn x = sgn y)

/-- fabs from fsl_math.h. -/
def fabs (x : X) : X :=
  if x ≥ 0 then x else -x

namespace pwflat

/-- std::lower_bound over the knot list, as used by forward in
fsl_pwflat.h: the first knot whose time is not less than u. The C++
sources are templated over the time type T and rate type F, both
defaulted to double; the model instantiates both at one linear ordered
field X. -/
def lowerBound (u : X) : List (X × X) → Option (X × X)
  | [] => none
  | p :: ps => if u ≤ p.1 then some p else lowerBound u ps

/-- forward from fsl_pwflat.h: NaN (none) for u < 0, the extrapolated
value ef for an empty knot list, otherwise the rate at the first knot
with time at least u, falling back to ef past the last knot. -/
def forward (u : X) (knots : List (X × X)) (ef : Option X) : Option X :=
  if u < 0 then none
  else
    match knots with
    | [] => ef
    | _ :: _ =>
      match lowerBound u knots with
      | some p => some p.2
      | none => ef

/-- The for-loop of integral in fsl_pwflat.h: tprev is the running t_,
acc the running I; after the knots at or before u are consumed, the
partial interval up to u is charged to the next rate, or to the
extrapolated value ef past the last knot. -/
def integralAux (u : X) : X → X → List (X × X) → Option X → Option X
  | tprev, acc, [], ef =>
    if tprev < u then ef.map (fun g => acc + g * (u - tprev)) else some acc
  | tprev, acc, (t, g) :: ps, ef =>
    if t ≤ u then integralAux u t (acc + g * (t - tprev)) ps ef
    else if tprev < u then some (acc + g * (u - tprev)) else some acc

/-- integral from fsl_pwflat.h: NaN (none) for u < 0, 0 at u = 0,
u * ef on an empty knot list, otherwise the loop integralAux. -/
def integral (u : X) (knots : List (X × X)) (ef : Option X) : Option X :=
  if u < 0 then none
  else if u = 0 then some 0
  else
    match knots with
    | [] => ef.map (fun g => u * g)
    | _ :: _ => integralAux u 0 0 knots ef

/-- discount from fsl_pwflat.h: exp(-integral u), stated at X = ℝ where
the exponential lives. -/
noncomputable def discount (u : ℝ) (knots : List (ℝ × ℝ)) (ef : Option ℝ) : Option ℝ :=
  (integral u knots ef).map (fun I => Real.exp (-I))

/-- spot from fsl_pwflat.h: ef on an empty knot list, the first rate for
u at or below the first knot time, otherwise integral u / u. -/
def spot (u : X) (knots : List (X × X)) (ef : Option X) : Option X :=
  match knots with
  | [] => ef
  | (t0, f0) :: _ =>
    if u ≤ t0 then some f0 else (integral u knots ef).map (fun I => I / u)

/-- The value-type curve of fsl_pwflat.h. view models the points exposed
through the inherited curve_view members n_, t_ and f_; ef models the
extrapolated value _f (none for NaN); vect and vecf model the private
std::vector members t and f. The source constructors keep view equal to
the vector contents, and push_back appends to the vectors alone, exactly
as in the source, where it never reassigns n_, t_ or f_. -/
structure Curve (X : Type) where
  view : List (X × X)
  ef : Option X
  vect : List X
  vecf : List X
  deriving DecidableEq

namespace Curve

/-- The default constructor curve(F _f = NaN): empty view, empty vectors. -/
def ofExtrap (ef : Option X) : Curve X :=
  ⟨[], ef, [], []⟩

/-- The constructor curve(n, t, f, _f): the view is the given arrays (n_,
t_ and f_ are assigned from the constructor arguments) and the vectors
copy them. -/
def ofArrays (knots : List (X × X)) (ef : Option X) : Curve X :=
  ⟨knots, ef, knots.map Prod.fst, knots.map Prod.snd⟩

/-- curve_view::size(): returns n_. -/
def size (c : Curve X) : ℕ :=
  c.view.length

/-- curve_view::back(): the sentinel (0, 0) when n_ = 0, else the last
view point. -/
def back (c : Curve X) : X × X :=
  (c.view.getLast?).getD (0, 0)

/-- curve_view::forward(u) through the view members. -/
def forward (c : Curve X) (u : X) : Option X :=
  pwflat.forward u c.view c.ef

/-- curve_view::integral(u) through the view members. -/
def integral (c : Curve X) (u : X) : Option X :=
  pwflat.integral u c.view c.ef

/-- curve_view::discount(u) through the view members. -/
noncomputable def discount (c : Curve ℝ) (u : ℝ) : Option ℝ :=
  pwflat.discount u c.view c.ef

/-- curve_view::spot(u) through the view members. -/
def spot (c : Curve X) (u : X) : Option X :=
  pwflat.spot u c.view c.ef

/-- curve::push_back(t, f): throws when t is at or before the time of
back(); otherwise appends to the vectors t and f. As in the source, the
inherited view members n_, t_ and f_ are left untouched. -/
def push_back (c : Curve X) (t : X) (f : X) : Except String (Curve X) :=
  if t ≤ c.back.1 then Except.error "Time must be increasing."
  else Except.ok { c with vect := c.vect ++ [t], vecf := c.vecf ++ [f] }

end Curve

end pwflat

namespace root1d

/-- The secant state of fsl_root1d.h: the two iterates (x0, y0), (x1, y1)
and the bounded flag recording an observed sign change. -/
structure SecState (X : Type) where
  x0 : X
  y0 : X
  x1 : X
  y1 : X
  bounded : Bool
  deriving DecidableEq

/-- One execution of the while-loop body of secant::solve: the next
secant iterate x with value y = f x replaces (x1, y1) when a bracket is
held and y matches the sign of y1; otherwise both iterates shift and the
bounded flag is recomputed from the new pair. -/
def secantStep (f : X → X) (s : SecState X) : SecState X :=
  let x := (s.x0 * s.y1 - s.x1 * s.y0) / (s.y1 - s.y0)
  let y := f x
  if s.bounded && samesign y s.y1 then
    { s with x1 := x, y1 := y }
  else
    ⟨s.x1, s.y1, x, y, !samesign s.y1 y⟩

/-- The while-loop of secant::solve: the counter n is pre-incremented and
compared with the iteration budget before the tolerance test, and the
loop exits with the incremented counter. The structural fuel only bounds
the recursion; with fuel at least iterations - n it is never the reason
the loop stops, because the guard n + 1 < iterations fails first, and
the fuel-exhausted result equals the guard-false result. -/
def secantIter (f : X → X) (tol : X) (iterations : ℕ) :
    ℕ → SecState X → ℕ → X × X × ℕ
  | 0, s, n => (s.x1, s.y1, n + 1)
  | fuel + 1, s, n =>
    if n + 1 < iterations ∧ fabs s.y1 > tol then
      secantIter f tol iterations fuel (secantStep f s) (n + 1)
    else (s.x1, s.y1, n + 1)

/-- secant::solve from fsl_root1d.h: evaluates f at the two seeds, runs
the loop, and returns (root, residual, count); the root is none (the
source assigns NaN) exactly when the final count equals the iteration
budget. -/
def secantSolve (f : X → X) (tol : X) (iterations : ℕ) (x0 x1 : X) :
    Option X × X × ℕ :=
  let y0 := f x0
  let y1 := f x1
  let r := secantIter f tol iterations iterations ⟨x0, y0, x1, y1, !samesign y0 y1⟩ 0
  (if r.2.2 = iterations then none else some r.1, r.2.1, r.2.2)

/-- The while-loop of newton::solve at the source's default bounds
a = -infinity, b = +infinity: with those bounds every comparison inside
bracket(x, x0, a, b) is false and bracket returns x unchanged, so the
body is x0 := x0 - y0 / df x0 followed by y0 := f x0. The counter
behaves exactly as in the secant loop. -/
def newtonIter (f df : X → X) (tol : X) (iterations : ℕ) :
    ℕ → X → X → ℕ → X × X × ℕ
  | 0, x0, y0, n => (x0, y0, n + 1)
  | fuel + 1, x0, y0, n =>
    if n + 1 < iterations ∧ fabs y0 > tol then
      let x := x0 - y0 / df x0
      newtonIter f df tol iterations fuel x (f x) (n + 1)
    else (x0, y0, n + 1)

/-- newton::solve from fsl_root1d.h at the default infinite bounds:
returns (root, residual, count), the root none (NaN in the source)
exactly when the final count equals the iteration budget. -/
def newtonSolve (f df : X → X) (tol : X) (iterations : ℕ) (x0 : X) :
    Option X × X × ℕ :=
  let r := newtonIter f df tol iterations iterations x0 (f x0) 0
  (if r.2.2 = iterations then none else some r.1, r.2.1, r.2.2)

end root1d

/-- An instrument, fsl_bootstrap.h / fsl_instrument.h: an ordered list of
(time, amount) cash flows. -/
abbrev Inst := List (ℝ × ℝ)

/-- zero_coupon_bond(u, D) from fsl_instrument.h: a cash flow of -D at
time 0 and of 1 at maturity u. -/
def zero_coupon_bond (u D : ℝ) : Inst :=
  [(0, -D), (u, 1)]

/-- present_value from fsl_bootstrap.h: the NaN-propagating sum of
c * discount(u) over the cash flows, starting from 0; the source performs
no emptiness check, so an empty instrument yields the initial 0. -/
noncomputable def present_value (uc : Inst) (D : pwflat.Curve ℝ) : Option ℝ :=
  uc.foldl (fun pv p => addO pv ((D.discount p.1).map fun d => p.2 * d)) (some 0)

/-- duration from fsl_bootstrap.h: the NaN-propagating sum of
u * c * discount(u) over the cash flows. -/
noncomputable def duration (uc : Inst) (c : pwflat.Curve ℝ) : Option ℝ :=
  uc.foldl (fun dur p => addO dur ((c.discount p.1).map fun d => p.1 * p.2 * d)) (some 0)

/-- The calibration loop of bootstrap0: while the iteration budget lasts
and |present_value| > eps, replace the extrapolated value f_ by
f_ - present_value / duration. The source writes f.extrapolate(f_) for
installing the iterate as the extrapolated value before each evaluation
(the curve-with-new-extrapolation of fsl_pwflat.h); the loop exits when
the present value is NaN, since the IEEE comparison |NaN| > eps is
false, and a present value implies a duration over the same discount
factors. -/
noncomputable def bootstrap0Loop (uc : Inst) (c : pwflat.Curve ℝ) (eps : ℝ) :
    ℕ → ℝ → ℝ
  | 0, f_ => f_
  | iter + 1, f_ =>
    match present_value uc { c with ef := some f_ }, duration uc { c with ef := some f_ } with
    | some pv, some dur =>
      if |pv| > eps then bootstrap0Loop uc c eps iter (f_ - pv / dur) else f_
    | _, _ => f_

/-- bootstrap0 from fsl_bootstrap.h: throws on an empty instrument, then
when the final cash-flow time is not past the end of the curve;
otherwise runs the calibration loop from the rate of back() and returns
the final cash-flow time paired with the last iterate. -/
noncomputable def bootstrap0 (uc : Inst) (c : pwflat.Curve ℝ) (eps : ℝ) (iter : ℕ) :
    Except String (ℝ × ℝ) :=
  match uc.getLast? with
  | none => Except.error "Instrument cash flow is empty"
  | some (u_, _) =>
    if u_ ≤ c.back.1 then Except.error "Last cash flow must be past end of curve"
    else Except.ok (u_, bootstrap0Loop uc c eps iter c.back.2)

/-- bootstrap from fsl_bootstrap.h: the entry point constructs a
default curve and returns it; the body is a TODO in the source, where
the call of bootstrap0 for each instrument is only a comment. -/
def bootstrap (_uc : List Inst) (_eps : ℝ) (_iter : ℕ) : pwflat.Curve ℝ :=
  pwflat.Curve.ofExtrap none

/-- black_moneyness from fsl_black.h: returns quiet NaN (none) when
f ≤ 0, s ≤ 0 or k ≤ 0 — the source comments this branch with Use NaN
for errors — and otherwise (log(k/f) + s*s/2)/s. -/
noncomputable def black_moneyness (f s k : ℝ) : Option ℝ :=
  if f ≤ 0 ∨ s ≤ 0 ∨ k ≤ 0 then none
  else some ((Real.log (k / f) + s * s / 2) / s)

/-- black_bsm from fsl_bsm.h: throws when s0 ≤ 0, sigma ≤ 0 or t ≤ 0;
otherwise returns the discount factor, the forward price and the Black
volatility. -/
noncomputable def black_bsm (r s0 sigma t : ℝ) : Except String (ℝ × ℝ × ℝ) :=
  if s0 ≤ 0 ∨ sigma ≤ 0 ∨ t ≤ 0 then Except.error "s0, sigma, and t must be positive"
  else
    let D := Real.exp (-(r * t))
    Except.ok (D, s0 / D, sigma * Real.sqrt t)

/-- The closed form named by the claim about duration: the present value
of the cash flows uc on a knotless curve flat at rate r, written as the
sum of c * exp(-u * r) over the cash flows. -/
noncomputable def flatPV (uc : Inst) (r : ℝ) : ℝ :=
  (uc.map fun p => p.2 * Real.exp (-(p.1 * r))).sum

/-- The closed form of duration on a knotless curve flat at rate r: the
sum of u * c * exp(-u * r) over the cash flows. -/
noncomputable def flatDur (uc : Inst) (r : ℝ) : ℝ :=
  (uc.map fun p => p.1 * p.2 * Real.exp (-(p.1 * r))).sum

/-
Theorems for the claims.
-/

/-- C1: evaluating the bootstrap entry point at a single zero-coupon bond
instrument (maturity 1, price 9/10): the source's bootstrap body is a
TODO and returns a default-constructed curve, so the result is the empty
curve with NaN extrapolation — it contains no committed knot and its
discount(1) is NaN (none), not 9/10 within tolerance. -/
theorem C1_bootstrap_returns_empty_curve :
    bootstrap [zero_coupon_bond 1 (9/10)] (1/100000000) 100 = pwflat.Curve.ofExtrap none ∧
    (bootstrap [zero_coupon_bond 1 (9/10)] (1/100000000) 100).size = 0 ∧
    (bootstrap [zero_coupon_bond 1 (9/10)] (1/100000000) 100).discount 1 = none := by
  refine ⟨rfl, rfl, ?_⟩
  norm_num [bootstrap, pwflat.Curve.ofExtrap, pwflat.Curve.discount, pwflat.discount,
    pwflat.integral]

/-- C2: evaluating curve::push_back at a concrete input: appending the
knot (1, 2/10) to a default-constructed curve with extrapolated value
1/10 succeeds and stores the knot in the vectors, yet the resulting
curve still reports size() = 0 and forward(1) = 1/10 (the extrapolated
value): the inherited view members are never updated, so the appended
knot is invisible to every query. -/
theorem C2_push_back_stale_view :
    ∃ c : pwflat.Curve ℚ,
      (pwflat.Curve.ofExtrap (some (1/10 : ℚ))).push_back 1 (2/10) = Except.ok c ∧
      c.vect = [1] ∧ c.vecf = [2/10] ∧ c.size = 0 ∧ c.forward 1 = some (1/10) :=
  ⟨⟨[], some (1/10), [1], [2/10]⟩, rfl, rfl, rfl, rfl, rfl⟩

/-- lowerBound finds nothing exactly when every knot time is strictly
before u. -/
theorem lowerBound_eq_none_iff {X : Type} [LinearOrderedField X] (u : X)
    (knots : List (X × X)) :
    pwflat.lowerBound u knots = none ↔ ∀ p ∈ knots, p.1 < u := by
  induction knots with
  | nil => simp [pwflat.lowerBound]
  | cons p ps ih =>
    by_cases h : u ≤ p.1
    · simp [pwflat.lowerBound, if_pos h, not_lt.mpr h]
    · simp [pwflat.lowerBound, if_neg h, ih, not_le.mp h]

/-- lowerBound returns the first knot whose time is at or after u. -/
theorem lowerBound_eq_get {X : Type} [LinearOrderedField X] (u : X) :
    ∀ (knots : List (X × X)) (i : ℕ) (hi : i < knots.length),
      (∀ j (hj : j < i), (knots.get ⟨j, lt_trans hj hi⟩).1 < u) →
      u ≤ (knots.get ⟨i, hi⟩).1 →
      pwflat.lowerBound u knots = some (knots.get ⟨i, hi⟩)
  | [], i, hi => by simp at hi
  | p :: ps, 0, hi => fun _ hu => by
    have hu' : u ≤ p.1 := hu
    simp only [pwflat.lowerBound]
    rw [if_pos hu']
    rfl
  | p :: ps, i + 1, hi => fun hlt hu => by
    have hp : p.1 < u := hlt 0 (Nat.succ_pos i)
    simp only [pwflat.lowerBound]
    rw [if_neg (not_le.mpr hp)]
    exact lowerBound_eq_get u ps i (Nat.lt_of_succ_lt_succ hi)
      (fun j hj => hlt (j + 1) (Nat.succ_lt_succ hj)) hu

/-- In a strictly increasing knot list whose last time is before u, every
knot time is before u. -/
theorem forall_lt_of_getLast_lt {X : Type} [LinearOrderedField X] {u : X}
    (knots : List (X × X)) (hpw : knots.Pairwise (fun p q => p.1 < q.1))
    (lk : X × X) (hlast : knots.getLast? = some lk) (hlt : lk.1 < u) :
    ∀ p ∈ knots, p.1 < u := by
  intro p hp
  obtain ⟨hne, rfl⟩ := List.mem_getLast?_eq_getLast (Option.mem_def.mpr hlast)
  obtain ⟨n, rfl⟩ := List.mem_iff_get.mp hp
  have hl1 : knots.length - 1 < knots.length := by
    have := n.isLt
    omega
  have hgl : knots.getLast hne = knots.get ⟨knots.length - 1, hl1⟩ :=
    List.getLast_eq_get knots hne
  rcases Nat.lt_or_ge (n : ℕ) (knots.length - 1) with hlt1 | hge1
  · have hrel := List.pairwise_iff_get.mp hpw n ⟨knots.length - 1, hl1⟩ hlt1
    exact lt_trans hrel (hgl ▸ hlt)
  · have heq : (n : ℕ) = knots.length - 1 := by
      have := n.isLt
      omega
    have hget : knots.get n = knots.get ⟨knots.length - 1, hl1⟩ := by
      congr 1
      exact Fin.ext heq
    rw [hget]
    exact hgl ▸ hlt

/-- C3: with strictly increasing knot times, forward returns NaN for
u < 0; the extrapolated value on an empty knot list or for u beyond the
last knot time; otherwise the rate of the first knot whose time is at
least u; and at every knot with nonnegative time, forward at the knot
time is exactly the knot rate (right-continuity). -/
theorem C3_forward_cases {X : Type} [LinearOrderedField X]
    (knots : List (X × X)) (hinc : knots.Pairwise (fun p q => p.1 < q.1))
    (ef : Option X) (u : X) :
    (u < 0 → pwflat.forward u knots ef = none) ∧
    (0 ≤ u → knots = [] → pwflat.forward u knots ef = ef) ∧
    (0 ≤ u → ∀ lk, knots.getLast? = some lk → lk.1 < u →
      pwflat.forward u knots ef = ef) ∧
    (0 ≤ u → ∀ (i : ℕ) (hi : i < knots.length),
      (∀ j (hj : j < i), (knots.get ⟨j, lt_trans hj hi⟩).1 < u) →
      u ≤ (knots.get ⟨i, hi⟩).1 →
      pwflat.forward u knots ef = some (knots.get ⟨i, hi⟩).2) ∧
    (∀ (i : ℕ) (hi : i < knots.length), 0 ≤ (knots.get ⟨i, hi⟩).1 →
      pwflat.forward (knots.get ⟨i, hi⟩).1 knots ef = some (knots.get ⟨i, hi⟩).2) := by
  have hfwd : ∀ v : X, ¬ v < 0 → knots ≠ [] →
      pwflat.forward v knots ef =
        (match pwflat.lowerBound v knots with
         | some p => some p.2
         | none => ef) := by
    intro v hv hne
    cases knots with
    | nil => exact absurd rfl hne
    | cons p ps => simp only [pwflat.forward, if_neg hv]
  refine ⟨?_, ?_, ?_, ?_, ?_⟩
  · intro hu
    simp only [pwflat.forward, if_pos hu]
  · intro hu h
    subst h
    simp [pwflat.forward, not_lt.mpr hu]
  · intro hu lk hlast hlt
    have hne : knots ≠ [] := by
      intro h
      subst h
      simp at hlast
    have hall := forall_lt_of_getLast_lt knots hinc lk hlast hlt
    rw [hfwd u (not_lt.mpr hu) hne, (lowerBound_eq_none_iff u knots).mpr hall]
  · intro hu i hi hjs hge
    have hne : knots ≠ [] := by
      intro h
      subst h
      simp at hi
    rw [hfwd u (not_lt.mpr hu) hne, lowerBound_eq_get u knots i hi hjs hge]
  · intro i hi h0
    have hne : knots ≠ [] := by
      intro h
      subst h
      simp at hi
    have hjs : ∀ j (hj : j < i),
        (knots.get ⟨j, lt_trans hj hi⟩).1 < (knots.get ⟨i, hi⟩).1 := by
      intro j hj
      exact List.pairwise_iff_get.mp hinc ⟨j, lt_trans hj hi⟩ ⟨i, hi⟩ hj
    rw [hfwd _ (not_lt.mpr h0) hne, lowerBound_eq_get _ knots i hi hjs (le_refl _)]

/-- C3 witness: the theorem applied at the two-knot curve
((1, 5), (2, 7)) with extrapolated value 9: forward at the second knot
time returns that knot's rate. -/
theorem C3_witness :
    pwflat.forward (2 : ℚ) [(1, 5), (2, 7)] (some 9) = some 7 :=
  (C3_forward_cases (X := ℚ) [(1, 5), (2, 7)] (by decide) (some 9) 2).2.2.2.2 1
    (by decide) (by decide)

/-- C4 counterexample: present_value of the empty cash-flow sequence on a
concrete curve returns the value 0; it does not fail with an error. -/
theorem C4_empty_pv_returns_zero :
    present_value [] (pwflat.Curve.ofExtrap (some (1/20 : ℝ))) = some 0 := rfl

/-- C4 amended: present_value applied to an empty cash-flow sequence
returns 0 for every curve (the source has no emptiness check there),
while bootstrap0 applied to an empty instrument fails with the input
error. -/
theorem C4_empty_handling :
    (∀ c : pwflat.Curve ℝ, present_value [] c = some 0) ∧
    (∀ (c : pwflat.Curve ℝ) (eps : ℝ) (iter : ℕ),
      bootstrap0 [] c eps iter = Except.error "Instrument cash flow is empty") :=
  ⟨fun _ => rfl, fun _ _ _ => rfl⟩

/-- C5 counterexample: on the one-knot curve ((1, 1/10)) with extrapolated
value 0, the query spot(-1) returns the first rate 1/10, not NaN: the
branch for u at or below the first knot time fires before any negativity
check. -/
theorem C5_spot_negative_returns_first_rate :
    pwflat.spot (-1 : ℚ) [(1, 1/10)] (some 0) = some (1/10) ∧
    pwflat.spot (-1 : ℚ) [(1, 1/10)] (some 0) ≠ none := by
  exact ⟨rfl, by decide⟩

/-- C5 amended: for every curve and query time u < 0, forward, integral
and discount return NaN (none); spot instead returns the first knot rate
whenever u ≤ t[0] (so for every negative u once the first knot time is
nonnegative), the extrapolated value on an empty curve, and NaN only
when the curve has knots and u exceeds the first knot time. -/
theorem C5_negative_queries (knots : List (ℝ × ℝ)) (ef : Option ℝ) (u : ℝ)
    (hu : u < 0) :
    pwflat.forward u knots ef = none ∧
    pwflat.integral u knots ef = none ∧
    pwflat.discount u knots ef = none ∧
    pwflat.spot u knots ef =
      (match knots with
       | [] => ef
       | (t0, f0) :: _ => if u ≤ t0 then some f0 else none) := by
  have hforward : pwflat.forward u knots ef = none := by
    simp only [pwflat.forward, if_pos hu]
  have hintegral : pwflat.integral u knots ef = none := by
    simp only [pwflat.integral, if_pos hu]
  refine ⟨hforward, hintegral, ?_, ?_⟩
  · simp [pwflat.discount, hintegral]
  · cases knots with
    | nil => rfl
    | cons p ps =>
      obtain ⟨t0, f0⟩ := p
      by_cases h0 : u ≤ t0
      · simp [pwflat.spot, if_pos h0]
      · simp [pwflat.spot, if_neg h0, hintegral]

/-- C5 witness: the amended theorem applied at the one-knot curve
((1, 1/10)) with extrapolated value 0 and query time -1. -/
theorem C5_witness :
    ((-1 : ℝ) < 0) ∧ pwflat.forward (-1 : ℝ) [(1, 1/10)] (some 0) = none :=
  ⟨by norm_num, (C5_negative_queries [(1, 1/10)] (some 0) (-1) (by norm_num)).1⟩

/-- C6 counterexample: black_moneyness at f = -1, s = 1, k = 1 returns
the NaN value (none) to its caller; it does not signal a distinct error —
matching the source's own test, which asserts isnan on exactly this
input. -/
theorem C6_black_moneyness_returns_nan :
    black_moneyness (-1) 1 1 = none := by
  norm_num [black_moneyness]

/-- C6 amended: the domain-error convention is split between the two
families: black_moneyness returns NaN (none) for any non-positive f, s
or k, while black_bsm throws immediately for any non-positive s0, sigma
or t. -/
theorem C6_domain_error_conventions :
    (∀ f s k : ℝ, f ≤ 0 ∨ s ≤ 0 ∨ k ≤ 0 → black_moneyness f s k = none) ∧
    (∀ r s0 sigma t : ℝ, s0 ≤ 0 ∨ sigma ≤ 0 ∨ t ≤ 0 →
      black_bsm r s0 sigma t = Except.error "s0, sigma, and t must be positive") := by
  constructor
  · intro f s k h
    simp only [black_moneyness, if_pos h]
  · intro r s0 sigma t h
    simp only [black_bsm, if_pos h]

/-- C6 witness: the amended theorem applied at black_moneyness(-1, 1, 1)
and black_bsm(0, -1, 1, 1). -/
theorem C6_witness :
    black_moneyness (-1) 1 1 = none ∧
    black_bsm 0 (-1) 1 1 = Except.error "s0, sigma, and t must be positive" :=
  ⟨C6_domain_error_conventions.1 (-1) 1 1 (by norm_num),
   C6_domain_error_conventions.2 0 (-1) 1 1 (by norm_num)⟩

/-- The secant loop exits with a count at most the budget when started
below it, and an exit count different from the budget means the final
residual passed the tolerance test. -/
theorem secantIter_exit {X : Type} [LinearOrderedField X] (f : X → X) (tol : X)
    (iterations : ℕ) :
    ∀ (fuel n : ℕ) (s : root1d.SecState X), n < iterations →
      iterations ≤ fuel + n + 1 →
      (root1d.secantIter f tol iterations fuel s n).2.2 ≤ iterations ∧
      ((root1d.secantIter f tol iterations fuel s n).2.2 ≠ iterations →
        fabs (root1d.secantIter f tol iterations fuel s n).2.1 ≤ tol) := by
  intro fuel
  induction fuel with
  | zero =>
    intro n s hn hle
    have he : root1d.secantIter f tol iterations 0 s n = (s.x1, s.y1, n + 1) := rfl
    rw [he]
    refine ⟨?_, fun hne => ?_⟩
    · show n + 1 ≤ iterations
      omega
    · have hne' : n + 1 ≠ iterations := hne
      omega
  | succ fuel ih =>
    intro n s hn hle
    rw [root1d.secantIter]
    split
    · rename_i hcond
      exact ih (n + 1) (root1d.secantStep f s) hcond.1 (by omega)
    · rename_i hcond
      refine ⟨?_, fun hne => ?_⟩
      · show n + 1 ≤ iterations
        omega
      · have hne' : n + 1 ≠ iterations := hne
        show fabs s.y1 ≤ tol
        rcases not_and_or.mp hcond with h1 | h2
        · omega
        · exact not_lt.mp h2

/-- The newton loop satisfies the same exit property. -/
theorem newtonIter_exit {X : Type} [LinearOrderedField X] (f df : X → X) (tol : X)
    (iterations : ℕ) :
    ∀ (fuel n : ℕ) (x0 y0 : X), n < iterations →
      iterations ≤ fuel + n + 1 →
      (root1d.newtonIter f df tol iterations fuel x0 y0 n).2.2 ≤ iterations ∧
      ((root1d.newtonIter f df tol iterations fuel x0 y0 n).2.2 ≠ iterations →
        fabs (root1d.newtonIter f df tol iterations fuel x0 y0 n).2.1 ≤ tol) := by
  intro fuel
  induction fuel with
  | zero =>
    intro n x0 y0 hn hle
    have he : root1d.newtonIter f df tol iterations 0 x0 y0 n = (x0, y0, n + 1) := rfl
    rw [he]
    refine ⟨?_, fun hne => ?_⟩
    · show n + 1 ≤ iterations
      omega
    · have hne' : n + 1 ≠ iterations := hne
      omega
  | succ fuel ih =>
    intro n x0 y0 hn hle
    rw [root1d.newtonIter]
    split
    · rename_i hcond
      exact ih (n + 1) _ _ hcond.1 (by omega)
    · rename_i hcond
      refine ⟨?_, fun hne => ?_⟩
      · show n + 1 ≤ iterations
        omega
      · have hne' : n + 1 ≠ iterations := hne
        show fabs y0 ≤ tol
        rcases not_and_or.mp hcond with h1 | h2
        · omega
        · exact not_lt.mp h2

/-- C7 counterexample: secant::solve with an iteration budget of 0, seeds
2 and 1 and tolerance 0 on f(x) = x returns the root estimate 1 — not
NaN, because the exit count 1 differs from the budget 0 — with residual
1 exceeding the tolerance: a non-NaN root whose residual is not within
tolerance, returned without any convergence. -/
theorem C7_budget_zero_returns_seed :
    root1d.secantSolve (fun x : ℚ => x) 0 0 2 1 = (some 1, 1, 1) ∧
    ¬ fabs (root1d.secantSolve (fun x : ℚ => x) 0 0 2 1).2.1 ≤ 0 := by
  decide

/-- C7 amended: for both the secant and the Newton variant, the returned
root is NaN (none) exactly when the final iteration count equals the
iteration budget — with budget 0 the loop exits at count 1 and returns
the unexamined seed, and with budget 1 the root is NaN even when the
seed already meets the tolerance — and whenever the root is not NaN and
the budget is at least 1, the returned residual satisfies
|residual| ≤ tolerance. -/
theorem C7_root_nan_iff_budget {X : Type} [LinearOrderedField X]
    (f df : X → X) (tol : X) (iterations : ℕ) (x0 x1 : X) :
    ((root1d.secantSolve f tol iterations x0 x1).1 = none ↔
      (root1d.secantSolve f tol iterations x0 x1).2.2 = iterations) ∧
    (1 ≤ iterations → (root1d.secantSolve f tol iterations x0 x1).1 ≠ none →
      fabs (root1d.secantSolve f tol iterations x0 x1).2.1 ≤ tol) ∧
    ((root1d.newtonSolve f df tol iterations x0).1 = none ↔
      (root1d.newtonSolve f df tol iterations x0).2.2 = iterations) ∧
    (1 ≤ iterations → (root1d.newtonSolve f df tol iterations x0).1 ≠ none →
      fabs (root1d.newtonSolve f df tol iterations x0).2.1 ≤ tol) := by
  refine ⟨?_, ?_, ?_, ?_⟩
  · simp only [root1d.secantSolve]
    split
    · rename_i hc
      simpa using hc
    · rename_i hc
      simpa using hc
  · intro hiter hne
    simp only [root1d.secantSolve] at hne ⊢
    have hspec := secantIter_exit f tol iterations iterations 0
      ⟨x0, f x0, x1, f x1, !samesign (f x0) (f x1)⟩ (by omega) (by omega)
    refine hspec.2 ?_
    intro heq
    rw [heq] at hne
    simp at hne
  · simp only [root1d.newtonSolve]
    split
    · rename_i hc
      simpa using hc
    · rename_i hc
      simpa using hc
  · intro hiter hne
    simp only [root1d.newtonSolve] at hne ⊢
    have hspec := newtonIter_exit f df tol iterations iterations 0 x0 (f x0)
      (by omega) (by omega)
    refine hspec.2 ?_
    intro heq
    rw [heq] at hne
    simp at hne

/-- C7 witness: the amended theorem applied to f(x) = x with derivative 1,
tolerance 1 and budget 2: the secant solve from seeds 5, 0 and the
newton solve from seed 0 both return non-NaN roots with residual within
tolerance. -/
theorem C7_witness :
    fabs (root1d.secantSolve (fun x : ℚ => x) 1 2 5 0).2.1 ≤ 1 ∧
    fabs (root1d.newtonSolve (fun x : ℚ => x) (fun _ => 1) 1 2 0).2.1 ≤ 1 :=
  ⟨(C7_root_nan_iff_budget (fun x : ℚ => x) (fun _ => 1) 1 2 5 0).2.1
      (by decide) (by decide),
   (C7_root_nan_iff_budget (fun x : ℚ => x) (fun _ => 1) 1 2 0 0).2.2.2
      (by decide) (by decide)⟩

/-- samesign is false exactly when the two sgn values differ. -/
theorem samesign_eq_false_iff {X : Type} [LinearOrderedField X] (x y : X) :
    samesign x y = false ↔ sgn x ≠ sgn y := by
  simp [samesign]

/-- samesign is true exactly when the two sgn values agree. -/
theorem samesign_eq_true_iff {X : Type} [LinearOrderedField X] (x y : X) :
    samesign x y = true ↔ sgn x = sgn y := by
  simp [samesign]

/-- One bracketed loop-body execution keeps the sign change: the helper
behind the C8 theorem. -/
theorem secantStep_preserves {X : Type} [LinearOrderedField X] (f : X → X)
    (s : root1d.SecState X) (hb : s.bounded = true)
    (h : samesign s.y0 s.y1 = false) :
    samesign (root1d.secantStep f s).y0 (root1d.secantStep f s).y1 = false ∧
    (root1d.secantStep f s).bounded = true ∧
    (((root1d.secantStep f s).x0, (root1d.secantStep f s).y0) = (s.x0, s.y0) ∨
     ((root1d.secantStep f s).x0, (root1d.secantStep f s).y0) = (s.x1, s.y1)) := by
  have hstep : root1d.secantStep f s =
      (if samesign (f ((s.x0 * s.y1 - s.x1 * s.y0) / (s.y1 - s.y0))) s.y1 = true then
        { s with x1 := (s.x0 * s.y1 - s.x1 * s.y0) / (s.y1 - s.y0),
                 y1 := f ((s.x0 * s.y1 - s.x1 * s.y0) / (s.y1 - s.y0)) }
      else
        ⟨s.x1, s.y1, (s.x0 * s.y1 - s.x1 * s.y0) / (s.y1 - s.y0),
          f ((s.x0 * s.y1 - s.x1 * s.y0) / (s.y1 - s.y0)),
          !samesign s.y1 (f ((s.x0 * s.y1 - s.x1 * s.y0) / (s.y1 - s.y0)))⟩) := by
    simp only [root1d.secantStep, hb, Bool.true_and]
  rw [hstep]
  by_cases hc : samesign (f ((s.x0 * s.y1 - s.x1 * s.y0) / (s.y1 - s.y0))) s.y1 = true
  · rw [if_pos hc]
    refine ⟨?_, hb, Or.inl rfl⟩
    rw [samesign_eq_false_iff] at h ⊢
    rw [samesign_eq_true_iff] at hc
    simpa [hc] using h
  · rw [if_neg hc]
    have hc' : samesign (f ((s.x0 * s.y1 - s.x1 * s.y0) / (s.y1 - s.y0))) s.y1 = false := by
      simpa using hc
    have hsym : samesign s.y1 (f ((s.x0 * s.y1 - s.x1 * s.y0) / (s.y1 - s.y0))) = false := by
      rw [samesign_eq_false_iff] at hc' ⊢
      exact fun heq => hc' heq.symm
    refine ⟨hsym, ?_, Or.inr rfl⟩
    show (!samesign s.y1 (f ((s.x0 * s.y1 - s.x1 * s.y0) / (s.y1 - s.y0)))) = true
    rw [hsym]
    rfl

/-- C8: once the two secant iterates hold function values of opposite
sign and the bounded flag is set, every further execution of the loop
body preserves both (so the sign change is never lost for the remainder
of the solve), and a single body execution keeps one of the two previous
endpoints unchanged as the new (x0, y0) while (x1, y1) becomes the fresh
iterate: at most one endpoint is replaced per iteration. -/
theorem C8_bracket_invariant {X : Type} [LinearOrderedField X] (f : X → X)
    (s : root1d.SecState X) (hb : s.bounded = true)
    (h : samesign s.y0 s.y1 = false) :
    (∀ k : ℕ,
      samesign ((root1d.secantStep f)^[k] s).y0 ((root1d.secantStep f)^[k] s).y1 = false ∧
      ((root1d.secantStep f)^[k] s).bounded = true) ∧
    (((root1d.secantStep f s).x0, (root1d.secantStep f s).y0) = (s.x0, s.y0) ∨
     ((root1d.secantStep f s).x0, (root1d.secantStep f s).y0) = (s.x1, s.y1)) := by
  constructor
  · intro k
    induction k with
    | zero => exact ⟨h, hb⟩
    | succ k ih =>
      rw [Function.iterate_succ_apply']
      obtain ⟨ih1, ih2⟩ := ih
      have hstep := secantStep_preserves f _ ih2 ih1
      exact ⟨hstep.1, hstep.2.1⟩
  · exact (secantStep_preserves f s hb h).2.2

/-- C8 witness: the theorem applied to f(x) = x at the bracketed state
(-1, -1), (1, 1): after one body execution the values still differ in
sign. -/
theorem C8_witness :
    samesign (root1d.secantStep (fun x : ℚ => x) ⟨-1, -1, 1, 1, true⟩).y0
      (root1d.secantStep (fun x : ℚ => x) ⟨-1, -1, 1, 1, true⟩).y1 = false :=
  ((C8_bracket_invariant (fun x : ℚ => x) ⟨-1, -1, 1, 1, true⟩ rfl (by decide)).1 1).1

/-- A NaN-propagating foldl whose step always produces a value computes
the plain sum. -/
theorem foldl_addO_map (ψ : ℝ × ℝ → ℝ) (φ : ℝ × ℝ → Option ℝ) :
    ∀ (uc : List (ℝ × ℝ)), (∀ p ∈ uc, φ p = some (ψ p)) →
      ∀ a : ℝ, List.foldl (fun acc p => addO acc (φ p)) (some a) uc =
        some (a + (uc.map ψ).sum)
  | [], _, a => by simp
  | p :: ps, hφ, a => by
    have hp : φ p = some (ψ p) := hφ p (List.mem_cons_self p ps)
    have hrec := foldl_addO_map ψ φ ps
      (fun q hq => hφ q (List.mem_cons_of_mem p hq)) (a + ψ p)
    have haddO : addO (some a) (some (ψ p)) = some (a + ψ p) := rfl
    simp only [List.foldl_cons, hp, haddO, hrec, List.map_cons, List.sum_cons]
    rw [add_assoc]

/-- The discount factor of the knotless curve flat at rate r is
exp(-(u * r)) at every nonnegative time. -/
theorem discount_ofExtrap (r u : ℝ) (hu : 0 ≤ u) :
    (pwflat.Curve.ofExtrap (some r)).discount u = some (Real.exp (-(u * r))) := by
  have hnot : ¬ u < 0 := not_lt.mpr hu
  by_cases h0 : u = 0
  · subst h0
    simp [pwflat.Curve.discount, pwflat.discount, pwflat.Curve.ofExtrap, pwflat.integral]
  · simp [pwflat.Curve.discount, pwflat.discount, pwflat.Curve.ofExtrap, pwflat.integral,
      hnot, h0]

/-- Present value on the knotless curve flat at rate r is the closed-form
flatPV whenever all cash-flow times are nonnegative. -/
theorem present_value_ofExtrap (uc : Inst) (r : ℝ) (h : ∀ p ∈ uc, 0 ≤ p.1) :
    present_value uc (pwflat.Curve.ofExtrap (some r)) = some (flatPV uc r) := by
  have := foldl_addO_map (fun p => p.2 * Real.exp (-(p.1 * r)))
    (fun p => ((pwflat.Curve.ofExtrap (some r)).discount p.1).map fun d => p.2 * d) uc
    (fun p hp => by simp [discount_ofExtrap r p.1 (h p hp)]) 0
  rw [present_value, this, flatPV, zero_add]

/-- Duration on the knotless curve flat at rate r is the closed-form
flatDur whenever all cash-flow times are nonnegative. -/
theorem duration_ofExtrap (uc : Inst) (r : ℝ) (h : ∀ p ∈ uc, 0 ≤ p.1) :
    duration uc (pwflat.Curve.ofExtrap (some r)) = some (flatDur uc r) := by
  have := foldl_addO_map (fun p => p.1 * p.2 * Real.exp (-(p.1 * r)))
    (fun p => ((pwflat.Curve.ofExtrap (some r)).discount p.1).map fun d => p.1 * p.2 * d) uc
    (fun p hp => by simp [discount_ofExtrap r p.1 (h p hp)]) 0
  rw [duration, this, flatDur, zero_add]

/-- flatPV splits off its head cash flow. -/
theorem flatPV_cons (p : ℝ × ℝ) (ps : Inst) (s : ℝ) :
    flatPV (p :: ps) s = p.2 * Real.exp (-(p.1 * s)) + flatPV ps s := by
  simp [flatPV]

/-- flatDur splits off its head cash flow. -/
theorem flatDur_cons (p : ℝ × ℝ) (ps : Inst) (s : ℝ) :
    flatDur (p :: ps) s = p.1 * p.2 * Real.exp (-(p.1 * s)) + flatDur ps s := by
  simp [flatDur]

/-- The derivative of the flat-curve present value with respect to the
flat rate is the negated flatDur. -/
theorem flatPV_hasDerivAt (uc : Inst) (r : ℝ) :
    HasDerivAt (flatPV uc) (-(flatDur uc r)) r := by
  induction uc with
  | nil => simpa [flatPV, flatDur] using hasDerivAt_const r (0 : ℝ)
  | cons p ps ih =>
    have h1 : HasDerivAt (fun s : ℝ => -(p.1 * s)) (-p.1) r := by
      simpa using ((hasDerivAt_id r).const_mul p.1).neg
    have hterm : HasDerivAt (fun s => p.2 * Real.exp (-(p.1 * s)))
        (p.2 * (Real.exp (-(p.1 * r)) * -p.1)) r :=
      h1.exp.const_mul p.2
    have hsum := hterm.add ih
    have heq : (fun s => p.2 * Real.exp (-(p.1 * s)) + flatPV ps s) = flatPV (p :: ps) := by
      funext s
      rw [flatPV_cons]
    rw [heq] at hsum
    convert hsum using 1
    rw [flatDur_cons]
    ring

/-- C9 counterexample: for the single cash flow (1, 1) on the knotless
curve flat at rate 0, the source's duration evaluates to 1, while the
derivative of the claimed function f̄ ↦ Σ cᵢ exp(-f̄ tᵢ) at f̄ = 0 is -1:
the derivative of present value does not equal duration. -/
theorem C9_duration_not_derivative :
    duration [(1, 1)] (pwflat.Curve.ofExtrap (some 0)) = some 1 ∧
    ¬ HasDerivAt (flatPV [(1, 1)]) 1 0 := by
  constructor
  · rw [duration_ofExtrap [(1, 1)] 0 (by norm_num)]
    norm_num [flatDur]
  · intro hcontra
    have hd := flatPV_hasDerivAt [(1, 1)] 0
    have huniq := hd.unique hcontra
    norm_num [flatDur] at huniq

/-- C9 amended: duration(cashflows, curve) is the NaN-propagating sum of
tᵢ · cᵢ · discount(tᵢ) (so the plain sum once every discount is
defined); on a knotless curve flat at the extrapolated rate f̄ — the
setting of the bootstrap Newton step — present value is Σ cᵢ exp(-f̄ tᵢ),
duration is Σ tᵢ cᵢ exp(-f̄ tᵢ), and the partial derivative of present
value with respect to a uniform shift of f̄ is -duration: the negative of
the value the claim states. -/
theorem C9_duration_is_neg_derivative (uc : Inst) (h : ∀ p ∈ uc, 0 ≤ p.1) (r : ℝ) :
    present_value uc (pwflat.Curve.ofExtrap (some r)) = some (flatPV uc r) ∧
    duration uc (pwflat.Curve.ofExtrap (some r)) = some (flatDur uc r) ∧
    HasDerivAt (flatPV uc) (-(flatDur uc r)) r ∧
    (∀ c : pwflat.Curve ℝ, (∀ p ∈ uc, ∃ d, c.discount p.1 = some d) →
      duration uc c = some ((uc.map fun p => p.1 * p.2 * ((c.discount p.1).getD 0)).sum)) := by
  refine ⟨present_value_ofExtrap uc r h, duration_ofExtrap uc r h,
    flatPV_hasDerivAt uc r, ?_⟩
  intro c hc
  have := foldl_addO_map (fun p => p.1 * p.2 * ((c.discount p.1).getD 0))
    (fun p => (c.discount p.1).map fun d => p.1 * p.2 * d) uc
    (fun p hp => by
      obtain ⟨d, hd⟩ := hc p hp
      simp [hd]) 0
  rw [duration, this, zero_add]

/-- C9 witness: the amended theorem applied to the single cash flow (1, 1)
at flat rate 0. -/
theorem C9_witness :
    present_value [(1, 1)] (pwflat.Curve.ofExtrap (some 0)) = some (flatPV [(1, 1)] 0) ∧
    duration [(1, 1)] (pwflat.Curve.ofExtrap (some 0)) =
      some (([(1, 1)].map fun p : ℝ × ℝ =>
        p.1 * p.2 * (((pwflat.Curve.ofExtrap (some 0)).discount p.1).getD 0)).sum) :=
  ⟨(C9_duration_is_neg_derivative [(1, 1)] (by norm_num) 0).1,
   (C9_duration_is_neg_derivative [(1, 1)] (by norm_num) 0).2.2.2
     (pwflat.Curve.ofExtrap (some 0))
     (by
       rintro p hp
       rw [List.mem_singleton] at hp
       subst hp
       exact ⟨_, discount_ofExtrap 0 1 (by norm_num)⟩)⟩

/-- C10: on an empty curve back() returns the sentinel point (0, 0), so
push_back(t, f) with t ≤ 0 fails with the same ordering-violation error
even though no prior knot exists, and any first knot accepted by
push_back on an empty curve has strictly positive time. -/
theorem C10_empty_back_sentinel {X : Type} [LinearOrderedField X] (ef : Option X) :
    (pwflat.Curve.ofExtrap ef).back = (0, 0) ∧
    (∀ t f : X, t ≤ 0 →
      (pwflat.Curve.ofExtrap ef).push_back t f = Except.error "Time must be increasing.") ∧
    (∀ (t f : X) (c : pwflat.Curve X),
      (pwflat.Curve.ofExtrap ef).push_back t f = Except.ok c → 0 < t) := by
  refine ⟨rfl, ?_, ?_⟩
  · intro t f h
    simp only [pwflat.Curve.push_back]
    rw [if_pos]
    exact h
  · intro t f c hok
    simp only [pwflat.Curve.push_back] at hok
    split at hok
    · exact Except.noConfusion hok
    · rename_i hcond
      have h0 : (pwflat.Curve.ofExtrap ef).back.1 = 0 := rfl
      rw [h0] at hcond
      exact not_le.mp hcond

/-- C10 witness: the theorem applied on the empty curve with extrapolated
value 1, at the rejected knot (-1, 5) and the accepted knot (2, 5). -/
theorem C10_witness :
    (pwflat.Curve.ofExtrap (some (1 : ℚ))).push_back (-1) 5 =
      Except.error "Time must be increasing." ∧
    (0 : ℚ) < 2 :=
  ⟨(C10_empty_back_sentinel (some (1 : ℚ))).2.1 (-1) 5 (by decide),
   (C10_empty_back_sentinel (some (1 : ℚ))).2.2 2 5 ⟨[], some 1, [2], [5]⟩ rfl⟩

end fsl
